import Mathlib

/-
Verification development for the error-tolerant lexical validator in
src/main.py (classes Token, LexerError, Branch, AdvancedLexer).

The Python source is shallowly embedded below:
 - token kinds and grammar states become inductive enumerations;
 - the regex-driven scanner AdvancedLexer.lex becomes a fuel-based
   character-level scanner whose alternatives are translated one by one
   from TOKEN_REGEX (the regexes are simple: literal keywords with a word
   boundary, single punctuation characters, and two greedy character
   classes);
 - the best-first repair search validate_tokens becomes a fuel-based loop
   over an explicit priority queue.  Python's queue.PriorityQueue pops the
   least key but leaves the order of equal keys unspecified; the embedding
   resolves that single point of freedom deterministically by popping equal
   keys in insertion (FIFO) order.  Every concrete result proved below is
   independent of the tie order (for each concrete run there is a unique
   cheapest accepting branch).
 - Python string/char predicates (isspace, isalpha, isalnum, isdigit) are
   modelled by their ASCII meaning, which coincides with Python on every
   input considered here.
 - The float test matches / len(target) >= 0.6 in _fuzzy_match is modelled
   exactly by the rational comparison 10 * matches >= 6 * len(target); for
   the target lengths occurring in the source (3 and 5) the two agree.
-/

set_option maxHeartbeats 4000000
set_option maxRecDepth 100000

namespace Otstoy

/-! ## Data model (Token, LexerError, Branch; src/main.py lines 288-337) -/

/-- Token kinds, from the second components of AdvancedLexer.TOKEN_REGEX. -/
inductive TType where
  | CONST | I32 | COLON | ASSIGN | PLUS | MINUS | SEMICOLON
  | IDENTIFIER | NUMBER | INVALID
deriving DecidableEq, Fintype

/-- class Token: {type, value, line, column}. -/
structure Token where
  type : TType
  value : String
  line : Nat
  column : Nat
deriving DecidableEq

/-- class LexerError: {line, column, message}. -/
structure LexerError where
  line : Nat
  column : Nat
  message : String
deriving DecidableEq

/-- The change-log entries appended by the repair search: the tuples
('insert', pos, token), ('delete', pos, token),
('replace', pos, old_token, new_token). -/
inductive Change where
  | insert (pos : Nat) (tok : Token)
  | delete (pos : Nat) (tok : Token)
  | replace (pos : Nat) (old : Token) (tok : Token)
deriving DecidableEq

/-- Grammar states, the keys of AdvancedLexer.TRANSITIONS. -/
inductive GState where
  | START | CONSTIDENTIFIER | COLON | DATATYPE | ASSIGNMENT
  | VALUE | WHOLENUMBER | SEMICOLON | END
deriving DecidableEq, Fintype

/-- class Branch: {tokens, index, current_state, edit_count, changes}. -/
structure Branch where
  tokens : List Token
  index : Nat
  current_state : GState
  edit_count : Nat
  changes : List Change
deriving DecidableEq

/-! ## Grammar (AdvancedLexer.TRANSITIONS, lines 362-372, and constants) -/

/-- AdvancedLexer.MAX_EDIT_COUNT. -/
def MAX_EDIT_COUNT : Nat := 15

/-- The inner dictionaries of AdvancedLexer.TRANSITIONS, as association
lists in the insertion order of the Python dict literals.  Note that the
VALUE row allows NUMBER and MINUS only: there is no PLUS edge anywhere. -/
def allowedPairs : GState → List (TType × GState)
  | .START => [(.CONST, .CONSTIDENTIFIER)]
  | .CONSTIDENTIFIER => [(.IDENTIFIER, .COLON)]
  | .COLON => [(.COLON, .DATATYPE)]
  | .DATATYPE => [(.I32, .ASSIGNMENT)]
  | .ASSIGNMENT => [(.ASSIGN, .VALUE)]
  | .VALUE => [(.NUMBER, .SEMICOLON), (.MINUS, .WHOLENUMBER)]
  | .WHOLENUMBER => [(.NUMBER, .SEMICOLON)]
  | .SEMICOLON => [(.SEMICOLON, .END)]
  | .END => []

/-- TRANSITIONS[state][kind] as a partial lookup:
some next state when the kind is an outgoing edge, none otherwise. -/
def transitions (s : GState) (k : TType) : Option GState :=
  (allowedPairs s).findSome? (fun p => if p.1 = k then some p.2 else none)

/-- AdvancedLexer.DEFAULT_TOKEN_VALUES, with the .get fallback to the key
itself used in the source (`DEFAULT_TOKEN_VALUES.get(token_type, token_type)`). -/
def defaultTokenValue : TType → String
  | .CONST => "const"
  | .I32 => "i32"
  | .COLON => ":"
  | .ASSIGN => "="
  | .IDENTIFIER => "имя_переменной"
  | .PLUS => "+"
  | .MINUS => "-"
  | .SEMICOLON => ";"
  | .NUMBER => "число"
  | .INVALID => "INVALID"

/-- AdvancedLexer.create_token (lines 395-401): a synthetic token with the
default spelling for its kind, positioned at the reference token (or just
after it when insert_after is set; the search only ever passes False). -/
def createToken (tokenType : TType) (referenceToken : Token) (insertAfter : Bool) : Token :=
  let value := defaultTokenValue tokenType
  if insertAfter then
    Token.mk tokenType value referenceToken.line (referenceToken.column + referenceToken.value.length)
  else
    Token.mk tokenType value referenceToken.line referenceToken.column

/-! ## Scanner (AdvancedLexer.lex and helpers, lines 378-552) -/

/-- A single quote character, used when rebuilding the f-string messages. -/
def quoteChar : Char := Char.ofNat 39

/-- Wrap a string in single quotes, as the f-strings of the source do. -/
def sq (s : String) : String := String.singleton quoteChar ++ s ++ String.singleton quoteChar

/-- Python str.isspace for the ASCII range (also the regex \s class). -/
def pyIsSpace (c : Char) : Bool :=
  c = ' ' ∨ c = '\t' ∨ c = '\n' ∨ c = '\r' ∨ c = '\x0b' ∨ c = '\x0c'

/-- The regex word class \w (for the \b boundary in const\b and i32\b). -/
def isWordChar (c : Char) : Bool := c.isAlpha ∨ c.isDigit ∨ c = '_'

/-- The continuation class of the IDENTIFIER and NUMBER regexes:
the negated class excludes exactly space, tab, newline, carriage return,
colon, semicolon, equals and plus. -/
def isIdentCont (c : Char) : Bool :=
  ¬ (c = ' ' ∨ c = '\t' ∨ c = '\n' ∨ c = '\r' ∨ c = ':' ∨ c = ';' ∨ c = '=' ∨ c = '+')

/-- self.newline_positions: indices of newline characters in the input. -/
def newlinePositions : List Char → Nat → List Nat
  | [], _ => []
  | c :: rest, i =>
    (if c = '\n' then [i] else []) ++ newlinePositions rest (i + 1)

/-- AdvancedLexer.get_line_column (lines 387-393).  bisect_right on the
sorted newline list is the count of newline positions at most pos; the
column is measured from the last newline before the position. -/
def getLineColumn (newlines : List Nat) (pos : Nat) : Nat × Nat :=
  let before := newlines.filter (fun n => n ≤ pos)
  match before.getLast? with
  | none => (1, pos + 1)
  | some n => (before.length + 1, pos - n)

/-- One match attempt of the TOKEN_REGEX priority list at the current
position (the head of rest): returns the token kind together with the
matched characters.  The final [^\s] alternative matches any non-space
character, so after whitespace skipping some alternative always matches
(the `if not matched` branch of the source, lines 546-550, is dead code). -/
def scanMatch : List Char → TType × List Char
  | [] => (TType.INVALID, [])
  | c :: rest =>
    if c = 'c' ∧ rest.take 4 = ['o', 'n', 's', 't'] ∧
        ((rest.drop 4).head?.all (fun d => ¬ isWordChar d)) then
      (TType.CONST, c :: rest.take 4)
    else if c = 'i' ∧ rest.take 2 = ['3', '2'] ∧
        ((rest.drop 2).head?.all (fun d => ¬ isWordChar d)) then
      (TType.I32, c :: rest.take 2)
    else if c = ':' then (TType.COLON, [c])
    else if c = '=' then (TType.ASSIGN, [c])
    else if c = '+' then (TType.PLUS, [c])
    else if c = '-' then (TType.MINUS, [c])
    else if c = ';' then (TType.SEMICOLON, [c])
    else if c.isAlpha ∨ c = '_' then
      (TType.IDENTIFIER, c :: rest.takeWhile isIdentCont)
    else if c.isDigit then
      (TType.NUMBER, c :: rest.takeWhile isIdentCont)
    else
      (TType.INVALID, [c])

/-- The IDENTIFIER post-processing of lex (lines 454-507): validate the
first character, strip invalid inner characters (the per-character error
reports are commented out in the source; only the has_errors flag
remains), fall back to an underscore, and promote an exact keyword. -/
def lexIdentifier (matched : List Char) (line column : Nat) :
    Token × List LexerError :=
  match matched with
  | [] => (Token.mk TType.IDENTIFIER ("_") line column, [])
  | c0 :: rest =>
    let firstOk := c0.isAlpha ∨ c0 = '_'
    let firstErrors :=
      if firstOk then ([] : List LexerError)
      else [LexerError.mk line column
        ("Недопустимый первый символ идентификатора: " ++ String.singleton c0)]
    let keep := fun c => c.isAlphanum ∨ c = '_'
    let validChars := (if firstOk then [c0] else []) ++ rest.filter keep
    let hasErrors := (¬ firstOk) ∨ rest.any (fun c => ¬ keep c)
    let original := String.mk matched
    let validValue := if validChars.isEmpty then ("_") else String.mk validChars
    if validValue = "const" ∨ validValue = "i32" then
      let keywordType := if validValue = "const" then TType.CONST else TType.I32
      (Token.mk keywordType validValue line column,
        firstErrors ++
          (if hasErrors then
            [LexerError.mk line column
              ("Исправлено " ++ sq original ++ " на " ++ sq validValue)]
          else []))
    else
      (Token.mk TType.IDENTIFIER validValue line column,
        firstErrors ++
          (if hasErrors then
            [LexerError.mk line column
              ("Исправлен идентификатор: " ++ sq original ++ " -> " ++ sq validValue)]
          else []))

/-- The NUMBER post-processing of lex (lines 509-538): strip non-digits
(per-character reports are commented out), defaulting to "0". -/
def lexNumber (matched : List Char) (line column : Nat) :
    Token × List LexerError :=
  let digits := matched.filter Char.isDigit
  let hasErrors := matched.any (fun c => ¬ c.isDigit)
  let original := String.mk matched
  let validValue := if digits.isEmpty then ("0") else String.mk digits
  (Token.mk TType.NUMBER validValue line column,
    if hasErrors then
      [LexerError.mk line column
        ("Исправлено число: " ++ sq original ++ " -> " ++ sq validValue)]
    else [])

/-- The main scanning loop of AdvancedLexer.lex (lines 436-552): skip
whitespace, match one token, post-process it, advance.  Every iteration
consumes at least one character, so fuel = length + 1 never runs out. -/
def lexLoop : Nat → List Char → Nat → List Nat →
    List Token → List LexerError → List Token × List LexerError
  | 0, _, _, _, tokens, errors => (tokens, errors)
  | fuel + 1, rest, pos, newlines, tokens, errors =>
    let wsCount := (rest.takeWhile pyIsSpace).length
    let rest2 := rest.drop wsCount
    let pos2 := pos + wsCount
    match rest2 with
    | [] => (tokens, errors)
    | _ :: _ =>
      let lineCol := getLineColumn newlines pos2
      let m := scanMatch rest2
      let consumed := m.2.length
      let next := fun (tok : Token) (errs : List LexerError) =>
        lexLoop fuel (rest2.drop consumed) (pos2 + consumed) newlines
          (tokens ++ [tok]) (errors ++ errs)
      match m.1 with
      | TType.IDENTIFIER =>
        let r := lexIdentifier m.2 lineCol.1 lineCol.2
        next r.1 r.2
      | TType.NUMBER =>
        let r := lexNumber m.2 lineCol.1 lineCol.2
        next r.1 r.2
      | tt =>
        next (Token.mk tt (String.mk m.2) lineCol.1 lineCol.2) []

/-- AdvancedLexer.lex: text to (tokens, lexical errors). -/
def lex (input : String) : List Token × List LexerError :=
  let chars := input.toList
  lexLoop (chars.length + 1) chars 0 (newlinePositions chars 0) [] []

/-! ## Fuzzy keyword helpers (lines 403-434).  These are defined in the
source but never invoked from lex or anywhere else; they are embedded to
settle the claims about them. -/

/-- The greedy single-pass alignment loop of _fuzzy_match: advance the
target pointer always, the source pointer only on a character match,
counting matches. -/
def fuzzyMatchCount : List Char → List Char → Nat
  | [], _ => 0
  | _, [] => 0
  | c :: s, d :: t =>
    if c = d then 1 + fuzzyMatchCount s t else fuzzyMatchCount (c :: s) t

/-- AdvancedLexer._fuzzy_match: nonempty strings, equal first characters,
and greedy coverage of at least 60 percent of the target
(matches / len(target) >= 0.6, modelled as 10 * matches >= 6 * len). -/
def fuzzyMatch (s target : List Char) : Bool :=
  match s, target with
  | [], _ => false
  | _, [] => false
  | c :: _, d :: _ =>
    c = d ∧ 10 * fuzzyMatchCount s target ≥ 6 * target.length

/-- The keyword set {'const', 'i32'} of the source, as a list. -/
def keywordsList : List String := ["const", "i32"]

/-- AdvancedLexer.KEYWORD_TOLERANCE. -/
def KEYWORD_TOLERANCE : Nat := 2

/-- AdvancedLexer._is_keyword_candidate: skip keywords more than
KEYWORD_TOLERANCE longer than the value, otherwise try the fuzzy match
on the lowercased value (note: only the lower length bound is checked). -/
def isKeywordCandidate (value : String) : Bool :=
  let valueLower := (value.toList.map Char.toLower)
  keywordsList.any (fun keyword =>
    if value.length < keyword.length - KEYWORD_TOLERANCE then false
    else fuzzyMatch valueLower keyword.toList)

/-- AdvancedLexer._correct_keyword: the first keyword the lowercased value
fuzzily matches, if any. -/
def correctKeyword (value : String) : Option String :=
  let valueLower := (value.toList.map Char.toLower)
  keywordsList.findSome? (fun keyword =>
    if fuzzyMatch valueLower keyword.toList then some keyword else none)

/-! ## Repair search engine (validate_tokens and helpers, lines 554-763)

The queue is a list of (edit_count, branch) pairs kept sorted by
edit_count; pushes insert after existing equal keys, so equal-priority
entries pop in insertion order (Python's PriorityQueue leaves that order
unspecified; every concrete result proved below does not depend on it). -/

/-- The search queue. -/
abbrev Queue := List (Nat × Branch)

/-- queue.put: stable insertion into the key-sorted list. -/
def pushQueue : Queue → Nat × Branch → Queue
  | [], e => [e]
  | x :: rest, e => if e.1 < x.1 then e :: x :: rest else x :: pushQueue rest e

/-- AdvancedLexer._handle_valid_transition (lines 643-657): consume the
current token along its grammar edge; a transition into END resets the
edit count to zero and the state to START, while the change log is
copied unchanged. -/
def handleValidTransition (queue : Queue) (branch : Branch) : Queue :=
  match branch.tokens.get? branch.index with
  | none => queue
  | some currentToken =>
    match transitions branch.current_state currentToken.type with
    | none => queue
    | some nextState =>
      let newEditCount := if nextState = GState.END then 0 else branch.edit_count
      let newState := if nextState = GState.END then GState.START else nextState
      pushQueue queue (newEditCount,
        Branch.mk branch.tokens (branch.index + 1) newState newEditCount branch.changes)

/-- AdvancedLexer._generate_delete_branch (lines 670-690): drop the
offending token, keeping cursor and state; one edit, budget-pruned. -/
def generateDeleteBranch (queue : Queue) (branch : Branch) : Queue :=
  match branch.tokens.get? branch.index with
  | none => queue
  | some currentToken =>
    let newTokens := branch.tokens.eraseIdx branch.index
    let newChanges := branch.changes ++ [Change.delete branch.index currentToken]
    if branch.edit_count + 1 ≤ MAX_EDIT_COUNT then
      pushQueue queue (branch.edit_count + 1,
        Branch.mk newTokens branch.index branch.current_state
          (branch.edit_count + 1) newChanges)
    else queue

/-- AdvancedLexer._generate_replace_branches (lines 692-723): for every
allowed kind, substitute a synthetic token at the offending position and
advance along its edge; one edit each, budget-pruned. -/
def generateReplaceBranches (queue : Queue) (branch : Branch) : Queue :=
  match branch.tokens.get? branch.index with
  | none => queue
  | some currentToken =>
    (allowedPairs branch.current_state).foldl (fun q p =>
      let newToken := createToken p.1 currentToken false
      let newTokens := branch.tokens.set branch.index newToken
      let newChanges := branch.changes ++ [Change.replace branch.index currentToken newToken]
      if branch.edit_count + 1 ≤ MAX_EDIT_COUNT then
        pushQueue q (branch.edit_count + 1,
          Branch.mk newTokens (branch.index + 1) p.2 (branch.edit_count + 1) newChanges)
      else q) queue

/-- AdvancedLexer._generate_insert_branches (lines 725-752): for every
allowed kind, insert a synthetic token before the offending one and
advance past only the insertion; one edit each, budget-pruned. -/
def generateInsertBranches (queue : Queue) (branch : Branch) : Queue :=
  match branch.tokens.get? branch.index with
  | none => queue
  | some currentToken =>
    (allowedPairs branch.current_state).foldl (fun q p =>
      let insertToken := createToken p.1 currentToken false
      let newTokens := branch.tokens.insertIdx branch.index insertToken
      let newChanges := branch.changes ++ [Change.insert branch.index insertToken]
      if branch.edit_count + 1 ≤ MAX_EDIT_COUNT then
        pushQueue q (branch.edit_count + 1,
          Branch.mk newTokens (branch.index + 1) p.2 (branch.edit_count + 1) newChanges)
      else q) queue

/-- AdvancedLexer._process_transitions (lines 601-641): at the end of the
tokens but mid-statement, append one synthetic token for each allowed
kind, positioned after the last token; one edit each, budget-pruned. -/
def processTransitions (queue : Queue) (branch : Branch) : Queue :=
  (allowedPairs branch.current_state).foldl (fun q p =>
    let lineCol :=
      match branch.tokens.getLast? with
      | none => (1, 1)
      | some lastToken => (lastToken.line, lastToken.column + lastToken.value.length)
    let insertToken := Token.mk p.1 (defaultTokenValue p.1) lineCol.1 lineCol.2
    let newTokens := branch.tokens ++ [insertToken]
    let newChanges := branch.changes ++ [Change.insert (newTokens.length - 1) insertToken]
    if branch.edit_count + 1 ≤ MAX_EDIT_COUNT then
      pushQueue q (branch.edit_count + 1,
        Branch.mk newTokens newTokens.length p.2 (branch.edit_count + 1) newChanges)
    else q) queue

/-- The while-loop of validate_tokens (lines 564-597), one fuel unit per
iteration.  Returns none when fuel runs out, some best when the loop
exits (by emptying the queue or by the break after a candidate exists). -/
def searchLoop : Nat → Queue → Option Branch → Option (Option Branch)
  | 0, _, _ => none
  | fuel + 1, queue, best =>
    match queue with
    | [] => some best
    | (_, branch) :: rest =>
      if (match best with
          | some b => decide (b.edit_count ≤ MAX_EDIT_COUNT)
          | none => false) then
        some best
      else if branch.tokens.length ≤ branch.index then
        if branch.current_state = GState.END ∨ branch.current_state = GState.START then
          let newBest :=
            match best with
            | none => some branch
            | some b => if branch.edit_count < b.edit_count then some branch else best
          searchLoop fuel rest newBest
        else
          searchLoop fuel (processTransitions rest branch) best
      else
        match branch.tokens.get? branch.index with
        | none => searchLoop fuel rest best
        | some currentToken =>
          if (transitions branch.current_state currentToken.type).isSome then
            searchLoop fuel (handleValidTransition rest branch) best
          else
            searchLoop fuel
              (generateInsertBranches
                (generateReplaceBranches
                  (generateDeleteBranch rest branch) branch) branch)
              best

/-- The search of validate_tokens from the root branch
(original tokens, cursor 0, START, cost 0, empty log). -/
def searchBest (tokens : List Token) (fuel : Nat) : Option (Option Branch) :=
  searchLoop fuel [(0, Branch.mk tokens 0 GState.START 0 [])] none

/-- The diagnostic built for one change by
_generate_errors_from_changes (lines 765-799). -/
def diagOfChange : Change → LexerError
  | .delete _ tok =>
    LexerError.mk tok.line tok.column
      ("Удаление недопустимого токена: " ++ sq tok.value)
  | .replace _ old tok =>
    LexerError.mk old.line old.column
      ("Замена " ++ sq old.value ++ " на " ++ sq tok.value)
  | .insert _ tok =>
    LexerError.mk tok.line tok.column
      ("Вставка отсутствующего токена: " ++ sq tok.value)

/-- AdvancedLexer._generate_errors_from_changes: one diagnostic per
logged change, in chronological log order. -/
def generateErrorsFromChanges (changes : List Change) : List LexerError :=
  changes.map diagOfChange

/-- The fatal diagnostic of the budget-exceeded case (lines 759-763). -/
def budgetExceededError : LexerError :=
  LexerError.mk 0 0 ("Превышен лимит исправлений (" ++ toString MAX_EDIT_COUNT ++ ")")

/-- AdvancedLexer._finalize_validation (lines 754-763): with a winning
branch, its tokens and the diagnostics generated from its change log
(the scanner's errors are dropped); with none, the original tokens and
the scanner's errors followed by the single budget diagnostic. -/
def finalizeValidation (origTokens : List Token) (lexErrors : List LexerError) :
    Option Branch → List Token × List LexerError
  | some best => (best.tokens, generateErrorsFromChanges best.changes)
  | none => (origTokens, lexErrors ++ [budgetExceededError])

/-- AdvancedLexer.validate_tokens: the bounded best-first repair search,
taking the scanner's tokens and accumulated errors (self.tokens and
self.errors).  none when the fuel does not cover the loop. -/
def validateTokens (tokens : List Token) (lexErrors : List LexerError)
    (fuel : Nat) : Option (List Token × List LexerError) :=
  (searchBest tokens fuel).map (finalizeValidation tokens lexErrors)

/-! ## Derived notions used to state the claims -/

/-- The END-to-START normalization applied by _handle_valid_transition:
END is behaviorally equivalent to START for the next statement. -/
def normState (s : GState) : GState :=
  if s = GState.END then GState.START else s

/-- The deterministic run of the grammar over a token sequence using only
valid transitions, normalizing END to START after each step, exactly as
validate_tokens consumes an already-grammatical input. -/
def runNorm : GState → List Token → Option GState
  | s, [] => some s
  | s, t :: rest =>
    match transitions s t.type with
    | some u => runNorm (normState u) rest
    | none => none

/-- A token sequence is accepted by the grammar when the run consumes
every token and ends in an accepting state (the states accepted by the
end-of-input test of validate_tokens, line 571). -/
def accepts (tokens : List Token) : Bool :=
  match runNorm GState.START tokens with
  | some s => s = GState.END ∨ s = GState.START
  | none => false

/-- The inverse of one logged edit, applied to a token sequence: an
insert is undone by deleting at its position, a delete by re-inserting
the recorded token, a replace by restoring the recorded old token. -/
def applyInvChange : Change → List Token → List Token
  | Change.insert pos _, ts => ts.eraseIdx pos
  | Change.delete pos tok, ts => ts.insertIdx pos tok
  | Change.replace pos old _, ts => ts.set pos old

/-- Undo a change log in reverse chronological order (the last logged
edit is undone first). -/
def undoChanges (changes : List Change) (ts : List Token) : List Token :=
  changes.foldr applyInvChange ts

/-- The consumed prefix of a branch, related to its grammar state: each
consumed token took a grammar edge, recorded either normalized (valid
transitions) or raw (replace and insert expansions). -/
inductive Chain : List Token → GState → Prop
  | nil : Chain [] GState.START
  | step {ts : List Token} {s u sNext : GState} (t : Token) :
      Chain ts s → transitions s t.type = some u →
      (sNext = normState u ∨ sNext = u) → Chain (ts ++ [t]) sNext

/-- The invariant maintained by every branch the search ever enqueues:
the cursor stays within the tokens, the edit count respects the budget
and never exceeds the log length, undoing the log restores the original
scanned sequence, and the consumed prefix chains to the current state. -/
def BranchInv (orig : List Token) (b : Branch) : Prop :=
  b.index ≤ b.tokens.length ∧
  b.edit_count ≤ MAX_EDIT_COUNT ∧
  b.edit_count ≤ b.changes.length ∧
  undoChanges b.changes b.tokens = orig ∧
  Chain (b.tokens.take b.index) b.current_state

/-- The invariant of the recorded completion candidate: a branch
satisfying the branch invariant that has consumed all its tokens in an
accepting state. -/
def BestInv (orig : List Token) : Option Branch → Prop
  | none => True
  | some b => BranchInv orig b ∧ b.index = b.tokens.length ∧
      (b.current_state = GState.END ∨ b.current_state = GState.START)

/-- All queue entries satisfy the branch invariant. -/
def QueueInv (orig : List Token) (queue : Queue) : Prop :=
  ∀ pb ∈ queue, BranchInv orig pb.2

/-! ## Concrete inputs used by the claims -/

/-- The well-formed declaration of the spec's test list. -/
def acceptedText : String := "const x : i32 = 5;"

/-- The missing-colon input of the spec's test list. -/
def missingColonText : String := "const x i32 = 5;"

/-- A declaration with a leading plus sign on the value. -/
def plusText : String := "const x : i32 = +5;"

/-- A declaration with a leading minus sign on the value. -/
def minusText : String := "const x : i32 = -5;"

/-- An input whose repair needs 16 edits, one more than the budget: a
declaration missing its semicolon followed by 16 plus tokens (no PLUS
edge exists anywhere in the grammar, and no statement can be completed
by valid transitions, so every plus costs one edit with no END reset);
the mangled identifier also leaves one scanner correction notice. -/
def budgetText : String := "const x@ : i32 = 5 ++++++++++++++++"

/-- The tokens of the missing-colon input. -/
def missingColonTokens : List Token := (lex missingColonText).1

/-- The synthetic colon the search inserts to repair the
missing-colon input. -/
def insertedColon : Token := Token.mk TType.COLON (":") 1 9

/-- The winning branch of the search on the missing-colon input. -/
def missingColonWinner : Branch :=
  Branch.mk (missingColonTokens.insertIdx 2 insertedColon) 7 GState.START 0
    [Change.insert 2 insertedColon]

/-! ## Helper lemmas: lists and the queue -/

/-- Setting an index to the element already there changes nothing. -/
lemma set_of_getq : ∀ (l : List Token) (i : Nat) (a : Token),
    l.get? i = some a → l.set i a = l
  | [], i, a, h => by simp at h
  | b :: l, 0, a, h => by
    simp only [List.get?] at h
    simp [Option.some_inj.mp h]
  | b :: l, i + 1, a, h => by
    simp only [List.get?] at h
    simp [set_of_getq l i a h]

/-- Re-inserting the erased element restores the list. -/
lemma insertIdx_eraseIdx_self : ∀ (l : List Token) (i : Nat) (a : Token),
    l.get? i = some a → (l.eraseIdx i).insertIdx i a = l
  | [], i, a, h => by simp at h
  | b :: l, 0, a, h => by
    simp only [List.get?] at h
    simp [List.eraseIdx, Option.some_inj.mp h]
  | b :: l, i + 1, a, h => by
    simp only [List.get?] at h
    simp only [List.eraseIdx, List.insertIdx_succ_cons]
    rw [insertIdx_eraseIdx_self l i a h]

/-- Erasure at an index leaves the prefix before it untouched. -/
lemma take_eraseIdx_eq : ∀ (l : List Token) (i : Nat),
    (l.eraseIdx i).take i = l.take i
  | [], _ => by simp
  | _ :: _, 0 => by simp
  | b :: l, i + 1 => by
    simp only [List.eraseIdx, List.take_succ_cons]
    rw [take_eraseIdx_eq l i]

/-- The prefix one past a set position is the old prefix plus the new
element. -/
lemma take_set_succ : ∀ (l : List Token) (i : Nat) (a : Token), i < l.length →
    (l.set i a).take (i + 1) = l.take i ++ [a]
  | [], i, a, h => by simp at h
  | b :: l, 0, a, _ => by simp
  | b :: l, i + 1, a, h => by
    simp only [List.set, List.take_succ_cons, List.take_cons]
    rw [take_set_succ l i a (by simpa using h)]
    simp

/-- The prefix one past an insertion position is the old prefix plus the
inserted element. -/
lemma take_insertIdx_succ : ∀ (l : List Token) (i : Nat) (a : Token), i ≤ l.length →
    (l.insertIdx i a).take (i + 1) = l.take i ++ [a]
  | l, 0, a, _ => by simp
  | [], i + 1, a, h => by simp at h
  | b :: l, i + 1, a, h => by
    simp only [List.insertIdx_succ_cons, List.take_succ_cons, List.take_cons]
    rw [take_insertIdx_succ l i a (by simpa using h)]
    simp

/-- The prefix one past a position splits off that element. -/
lemma take_succ_of_getq (l : List Token) (i : Nat) (a : Token)
    (h : l.get? i = some a) : l.take (i + 1) = l.take i ++ [a] := by
  rw [List.take_succ]
  simp [← List.get?_eq_getElem?, h]

/-- Every member of a queue after a push is an old member or the pushed
entry. -/
lemma mem_pushQueue : ∀ (q : Queue) (e x : Nat × Branch),
    x ∈ pushQueue q e → x ∈ q ∨ x = e
  | [], e, x, h => by
    simp only [pushQueue, List.mem_singleton] at h
    exact Or.inr h
  | y :: rest, e, x, h => by
    simp only [pushQueue] at h
    split at h
    · rcases List.mem_cons.mp h with h1 | h1
      · exact Or.inr h1
      · exact Or.inl h1
    · rcases List.mem_cons.mp h with h1 | h1
      · exact Or.inl (List.mem_cons.mpr (Or.inl h1))
      · rcases mem_pushQueue rest e x h1 with h2 | h2
        · exact Or.inl (List.mem_cons.mpr (Or.inr h2))
        · exact Or.inr h2

/-- Pairs of the transition table rows agree with the lookup. -/
lemma pairs_transitions : ∀ (s : GState) (k : TType) (u : GState),
    (k, u) ∈ allowedPairs s → transitions s k = some u := by decide

/-! ## Helper lemmas: the grammar run and the chain relation -/

/-- The normalization is idempotent. -/
lemma normState_normState (s : GState) : normState (normState s) = normState s := by
  cases s <;> rfl

/-- The normalization never outputs END. -/
lemma normState_ne_end (s : GState) : normState s ≠ GState.END := by
  cases s <;> simp [normState]

/-- A run over an appended list is the composition of the runs. -/
lemma runNorm_append (l1 l2 : List Token) : ∀ (s : GState),
    runNorm s (l1 ++ l2) = (runNorm s l1).bind (fun m => runNorm m l2) := by
  induction l1 with
  | nil => intro s; simp [runNorm]
  | cons t rest ih =>
    intro s
    simp only [List.cons_append, runNorm]
    cases transitions s t.type with
    | none => simp
    | some u => simpa using ih (normState u)

/-- A run from a non-END state ends in a non-END state. -/
lemma runNorm_ne_end : ∀ (l : List Token) (s m : GState), s ≠ GState.END →
    runNorm s l = some m → m ≠ GState.END
  | [], s, m, hs, h => by
    simp only [runNorm, Option.some_inj] at h
    exact h ▸ hs
  | t :: rest, s, m, _, h => by
    simp only [runNorm] at h
    cases htr : transitions s t.type with
    | none => rw [htr] at h; simp at h
    | some u =>
      rw [htr] at h
      exact runNorm_ne_end rest (normState u) m (normState_ne_end u) h

/-- Looking up a transition never leaves from END. -/
lemma transitions_end_none (k : TType) : transitions GState.END k = none := rfl

/-- The chained prefix of a branch runs to the normalization of the
branch state: valid transitions record the normalized state, repair
transitions record the raw one, and both normalize alike. -/
lemma chain_runNorm {ts : List Token} {s : GState} (h : Chain ts s) :
    runNorm GState.START ts = some (normState s) := by
  induction h with
  | nil => rfl
  | @step ts s u sNext t hch htr hdis ih =>
    have hsne : s ≠ GState.END := by
      intro he
      rw [he, transitions_end_none] at htr
      exact Option.noConfusion htr
    rw [runNorm_append, ih]
    have hnorm : normState s = s := by
      cases s <;> first | rfl | exact absurd rfl hsne
    rw [hnorm]
    show runNorm s [t] = some (normState sNext)
    simp only [runNorm, htr]
    rcases hdis with h1 | h1
    · rw [h1, normState_normState]
    · rw [h1]

/-- A chain ending in an accepting state is an accepted sequence. -/
lemma chain_accepts {ts : List Token} {s : GState}
    (h : Chain ts s) (hs : s = GState.END ∨ s = GState.START) :
    accepts ts = true := by
  have hrun := chain_runNorm h
  have hnorm : normState s = GState.START := by
    rcases hs with rfl | rfl <;> rfl
  rw [hnorm] at hrun
  simp [accepts, hrun]

/-! ## Helper lemmas: the expansion functions preserve the invariant -/

/-- A fold of queue-growing steps preserves a property of all entries
when every step does. -/
lemma queueP_foldl {A : Type} (P : Nat × Branch → Prop) (step : Queue → A → Queue) :
    ∀ (l : List A) (q : Queue),
    (∀ q1 a, a ∈ l → (∀ x ∈ q1, P x) → ∀ x ∈ step q1 a, P x) →
    (∀ x ∈ q, P x) → ∀ x ∈ List.foldl step q l, P x := by
  intro l
  induction l with
  | nil => intro q _ hq x hx; exact hq x (by simpa using hx)
  | cons a rest ih =>
    intro q hstep hq x hx
    simp only [List.foldl_cons] at hx
    exact ih (step q a)
      (fun q1 a1 ha1 => hstep q1 a1 (List.mem_cons.mpr (Or.inr ha1)))
      (hstep q a (List.mem_cons.mpr (Or.inl rfl)) hq) x hx

/-- Valid transitions preserve the queue invariant. -/
lemma queueInv_handleValid {orig : List Token} (q : Queue) (b : Branch)
    (hb : BranchInv orig b) (hq : QueueInv orig q) :
    QueueInv orig (handleValidTransition q b) := by
  intro x hx
  cases hget : b.tokens.get? b.index with
  | none => simp only [handleValidTransition, hget] at hx; exact hq x hx
  | some t =>
    cases htr : transitions b.current_state t.type with
    | none => simp only [handleValidTransition, hget, htr] at hx; exact hq x hx
    | some u =>
      simp only [handleValidTransition, hget, htr] at hx
      rcases mem_pushQueue _ _ _ hx with h1 | h1
      · exact hq x h1
      · subst h1
        obtain ⟨hlen, hmax, hcnt, hundo, hchain⟩ := hb
        have hidx : b.index < b.tokens.length := by
          rcases List.get?_eq_some.mp hget with ⟨h, _⟩; exact h
        refine ⟨hidx, ?_, ?_, hundo, ?_⟩
        · by_cases hu : u = GState.END <;> simp only [BranchInv, hu, if_pos, if_neg, if_true, if_false]
          · exact Nat.zero_le _
          · simpa [hu] using hmax
        · by_cases hu : u = GState.END <;> simp only [hu, if_pos, if_neg, if_true, if_false]
          · exact Nat.zero_le _
          · simpa [hu] using hcnt
        · show Chain (b.tokens.take (b.index + 1)) _
          rw [take_succ_of_getq _ _ _ hget]
          exact Chain.step t hchain htr (Or.inl rfl)

/-- Delete expansions preserve the queue invariant. -/
lemma queueInv_generateDelete {orig : List Token} (q : Queue) (b : Branch)
    (hb : BranchInv orig b) (hq : QueueInv orig q) :
    QueueInv orig (generateDeleteBranch q b) := by
  intro x hx
  cases hget : b.tokens.get? b.index with
  | none => simp only [generateDeleteBranch, hget] at hx; exact hq x hx
  | some t =>
    simp only [generateDeleteBranch, hget] at hx
    split at hx
    case isFalse => exact hq x hx
    case isTrue hg =>
      rcases mem_pushQueue _ _ _ hx with h1 | h1
      · exact hq x h1
      · subst h1
        obtain ⟨hlen, hmax, hcnt, hundo, hchain⟩ := hb
        have hidx : b.index < b.tokens.length := by
          rcases List.get?_eq_some.mp hget with ⟨h, _⟩; exact h
        refine ⟨?_, hg, ?_, ?_, ?_⟩
        · show b.index ≤ (b.tokens.eraseIdx b.index).length
          rw [List.length_eraseIdx, if_pos hidx]
          exact Nat.le_pred_of_lt hidx
        · show b.edit_count + 1 ≤ (b.changes ++ [Change.delete b.index t]).length
          rw [List.length_append]
          exact Nat.succ_le_succ hcnt
        · show undoChanges (b.changes ++ [Change.delete b.index t]) (b.tokens.eraseIdx b.index) = orig
          unfold undoChanges at hundo ⊢
          rw [List.foldr_append]
          simpa [applyInvChange, insertIdx_eraseIdx_self _ _ _ hget] using hundo
        · show Chain ((b.tokens.eraseIdx b.index).take b.index) b.current_state
          rw [take_eraseIdx_eq]
          exact hchain

/-- Replace expansions preserve the queue invariant. -/
lemma queueInv_generateReplace {orig : List Token} (q : Queue) (b : Branch)
    (hb : BranchInv orig b) (hq : QueueInv orig q) :
    QueueInv orig (generateReplaceBranches q b) := by
  intro x hx
  cases hget : b.tokens.get? b.index with
  | none => simp only [generateReplaceBranches, hget] at hx; exact hq x hx
  | some t =>
    simp only [generateReplaceBranches, hget] at hx
    refine queueP_foldl (BranchInv orig ∘ Prod.snd) _ _ q ?_ hq x hx
    intro q1 p hp hq1 y hy
    simp only at hy
    split at hy
    case isFalse => exact hq1 y hy
    case isTrue hg =>
      rcases mem_pushQueue _ _ _ hy with h1 | h1
      · exact hq1 y h1
      · subst h1
        obtain ⟨hlen, hmax, hcnt, hundo, hchain⟩ := hb
        have hidx : b.index < b.tokens.length := by
          rcases List.get?_eq_some.mp hget with ⟨h, _⟩; exact h
        have htr : transitions b.current_state p.1 = some p.2 :=
          pairs_transitions _ _ _ hp
        refine ⟨?_, hg, ?_, ?_, ?_⟩
        · show b.index + 1 ≤ (b.tokens.set b.index (createToken p.1 t false)).length
          rw [List.length_set]
          exact hidx
        · show b.edit_count + 1 ≤ (b.changes ++ [Change.replace b.index t (createToken p.1 t false)]).length
          rw [List.length_append]
          exact Nat.succ_le_succ hcnt
        · show undoChanges (b.changes ++ [Change.replace b.index t (createToken p.1 t false)])
            (b.tokens.set b.index (createToken p.1 t false)) = orig
          unfold undoChanges at hundo ⊢
          rw [List.foldr_append]
          simpa [applyInvChange, List.set_set, set_of_getq _ _ _ hget] using hundo
        · show Chain ((b.tokens.set b.index (createToken p.1 t false)).take (b.index + 1)) p.2
          rw [take_set_succ _ _ _ hidx]
          exact Chain.step (createToken p.1 t false) hchain htr (Or.inr rfl)

/-- Insert expansions preserve the queue invariant. -/
lemma queueInv_generateInsert {orig : List Token} (q : Queue) (b : Branch)
    (hb : BranchInv orig b) (hq : QueueInv orig q) :
    QueueInv orig (generateInsertBranches q b) := by
  intro x hx
  cases hget : b.tokens.get? b.index with
  | none => simp only [generateInsertBranches, hget] at hx; exact hq x hx
  | some t =>
    simp only [generateInsertBranches, hget] at hx
    refine queueP_foldl (BranchInv orig ∘ Prod.snd) _ _ q ?_ hq x hx
    intro q1 p hp hq1 y hy
    simp only at hy
    split at hy
    case isFalse => exact hq1 y hy
    case isTrue hg =>
      rcases mem_pushQueue _ _ _ hy with h1 | h1
      · exact hq1 y h1
      · subst h1
        obtain ⟨hlen, hmax, hcnt, hundo, hchain⟩ := hb
        have hidx : b.index < b.tokens.length := by
          rcases List.get?_eq_some.mp hget with ⟨h, _⟩; exact h
        have htr : transitions b.current_state p.1 = some p.2 :=
          pairs_transitions _ _ _ hp
        refine ⟨?_, hg, ?_, ?_, ?_⟩
        · show b.index + 1 ≤ (b.tokens.insertIdx b.index (createToken p.1 t false)).length
          rw [List.length_insertIdx _ _ hlen]
          exact Nat.succ_le_succ hlen
        · show b.edit_count + 1 ≤ (b.changes ++ [Change.insert b.index (createToken p.1 t false)]).length
          rw [List.length_append]
          exact Nat.succ_le_succ hcnt
        · show undoChanges (b.changes ++ [Change.insert b.index (createToken p.1 t false)])
            (b.tokens.insertIdx b.index (createToken p.1 t false)) = orig
          unfold undoChanges at hundo ⊢
          rw [List.foldr_append]
          simpa [applyInvChange, List.eraseIdx_insertIdx] using hundo
        · show Chain ((b.tokens.insertIdx b.index (createToken p.1 t false)).take (b.index + 1)) p.2
          rw [take_insertIdx_succ _ _ _ hlen]
          exact Chain.step (createToken p.1 t false) hchain htr (Or.inr rfl)

/-- End-of-input insert expansions preserve the queue invariant. -/
lemma queueInv_processTransitions {orig : List Token} (q : Queue) (b : Branch)
    (hb : BranchInv orig b) (hidx : b.tokens.length ≤ b.index) (hq : QueueInv orig q) :
    QueueInv orig (processTransitions q b) := by
  intro x hx
  simp only [processTransitions] at hx
  refine queueP_foldl (BranchInv orig ∘ Prod.snd) _ _ q ?_ hq x hx
  intro q1 p hp hq1 y hy
  simp only at hy
  split at hy
  case isFalse => exact hq1 y hy
  case isTrue hg =>
    rcases mem_pushQueue _ _ _ hy with h1 | h1
    · exact hq1 y h1
    · subst h1
      obtain ⟨hlen, hmax, hcnt, hundo, hchain⟩ := hb
      have hieq : b.index = b.tokens.length := Nat.le_antisymm hlen hidx
      have htr : transitions b.current_state p.1 = some p.2 :=
        pairs_transitions _ _ _ hp
      set tok : Token := Token.mk p.1 (defaultTokenValue p.1)
        (match b.tokens.getLast? with
          | none => (1, 1)
          | some lastToken => (lastToken.line, lastToken.column + lastToken.value.length)).1
        (match b.tokens.getLast? with
          | none => (1, 1)
          | some lastToken => (lastToken.line, lastToken.column + lastToken.value.length)).2
        with htok
      refine ⟨Nat.le_refl _, hg, ?_, ?_, ?_⟩
      · show b.edit_count + 1 ≤ (b.changes ++ [Change.insert ((b.tokens ++ [tok]).length - 1) tok]).length
        rw [List.length_append]
        exact Nat.succ_le_succ hcnt
      · show undoChanges (b.changes ++ [Change.insert ((b.tokens ++ [tok]).length - 1) tok])
          (b.tokens ++ [tok]) = orig
        unfold undoChanges at hundo ⊢
        rw [List.foldr_append]
        have h2 : ((b.tokens ++ [tok]).length - 1) = b.tokens.length := by
          rw [List.length_append]
          simp
        have h3 : (b.tokens ++ [tok]).eraseIdx b.tokens.length = b.tokens := by
          rw [← List.insertIdx_length_self b.tokens tok, List.eraseIdx_insertIdx]
        simpa [applyInvChange, h2, h3] using hundo
      · show Chain ((b.tokens ++ [tok]).take (b.tokens ++ [tok]).length) p.2
        rw [List.take_length]
        have hchain2 : Chain b.tokens b.current_state := by
          rw [hieq, List.take_length] at hchain
          exact hchain
        exact Chain.step tok hchain2 htr (Or.inr rfl)

/-! ## Helper lemmas: the search loop preserves the invariant -/

/-- Every completion candidate the loop returns satisfies the branch
invariant, has consumed all of its tokens and sits in an accepting
state, provided every queue entry and any current candidate do. -/
lemma searchLoop_inv {orig : List Token} : ∀ (fuel : Nat) (queue : Queue)
    (best result : Option Branch),
    QueueInv orig queue → BestInv orig best →
    searchLoop fuel queue best = some result → BestInv orig result := by
  intro fuel
  induction fuel with
  | zero =>
    intro queue best result _ _ h
    simp [searchLoop] at h
  | succ fuel ih =>
    intro queue best result hq hb h
    cases queue with
    | nil =>
      simp only [searchLoop, Option.some_inj] at h
      exact h ▸ hb
    | cons e rest =>
      obtain ⟨p, b⟩ := e
      have hbr : BranchInv orig b := hq (p, b) (List.mem_cons.mpr (Or.inl rfl))
      have hrest : QueueInv orig rest :=
        fun pb hpb => hq pb (List.mem_cons.mpr (Or.inr hpb))
      simp only [searchLoop] at h
      split at h
      · -- break: a candidate within budget already exists
        simp only [Option.some_inj] at h
        exact h ▸ hb
      · split at h
        · -- end of tokens
          split at h
          case isTrue hacc =>
            -- accepting: record the candidate
            rename_i hlen2
            refine ih rest _ result hrest ?_ h
            have hbB : BestInv orig (some b) :=
              ⟨hbr, Nat.le_antisymm hbr.1 hlen2, hacc⟩
            cases best with
            | none => exact hbB
            | some bb =>
              by_cases hlt : b.edit_count < bb.edit_count <;>
                simp only [hlt, if_pos, if_neg, if_true, if_false]
              · exact hbB
              · simpa [hlt] using hb
          case isFalse hacc =>
            rename_i hlen2
            exact ih _ best result
              (queueInv_processTransitions rest b hbr hlen2 hrest) hb h
        · -- mid tokens: match on the current token first
          split at h
          · -- get? returned none (cursor in range makes this unreachable);
            -- the loop recurses on the remaining queue
            exact ih rest best result hrest hb h
          · split at h
            · -- valid transition
              exact ih _ best result (queueInv_handleValid rest b hbr hrest) hb h
            · -- repairs
              exact ih _ best result
                (queueInv_generateInsert _ b hbr
                  (queueInv_generateReplace _ b hbr
                    (queueInv_generateDelete rest b hbr hrest))) hb h

/-! ## Helper lemmas: the winning branch -/

/-- The root branch of the search satisfies the invariant. -/
lemma branchInv_root (ts : List Token) :
    BranchInv ts (Branch.mk ts 0 GState.START 0 []) :=
  ⟨Nat.zero_le _, Nat.zero_le _, Nat.le_refl _, rfl, by
    show Chain (ts.take 0) GState.START
    rw [List.take_zero]
    exact Chain.nil⟩

/-- A winning branch of the search satisfies the branch invariant, has
consumed all its tokens, and rests in an accepting state. -/
lemma searchBest_winner {ts : List Token} {fuel : Nat} {b : Branch}
    (h : searchBest ts fuel = some (some b)) :
    BranchInv ts b ∧ b.index = b.tokens.length ∧
      (b.current_state = GState.END ∨ b.current_state = GState.START) := by
  have hq : QueueInv ts [(0, Branch.mk ts 0 GState.START 0 [])] := by
    intro pb hpb
    rw [List.mem_singleton.mp hpb]
    exact branchInv_root ts
  exact searchLoop_inv fuel _ none (some b) hq trivial h

/-- A winning branch carries a grammar-accepted token sequence. -/
lemma winner_accepts {ts : List Token} {fuel : Nat} {b : Branch}
    (h : searchBest ts fuel = some (some b)) :
    accepts b.tokens = true := by
  obtain ⟨hinv, hidx, hacc⟩ := searchBest_winner h
  have hchain := hinv.2.2.2.2
  rw [hidx, List.take_length] at hchain
  exact chain_accepts hchain hacc

/-! ## Helper lemmas: already-accepted inputs run linearly -/

/-- On a branch whose remaining tokens run to acceptance with no edits,
the loop consumes one token per iteration (each valid transition pushes
the single successor) and returns that branch completed, with the empty
log and zero cost intact. -/
lemma searchLoop_accepted_run (ts : List Token) : ∀ (n i : Nat) (s : GState),
    i + n = ts.length → runNorm s (ts.drop i) = some GState.START →
    searchLoop (n + 2) [(0, Branch.mk ts i s 0 [])] none =
      some (some (Branch.mk ts ts.length GState.START 0 [])) := by
  intro n
  induction n with
  | zero =>
    intro i s hi hrun
    have hieq : i = ts.length := by omega
    subst hieq
    rw [List.drop_length] at hrun
    simp only [runNorm, Option.some_inj] at hrun
    subst hrun
    simp [searchLoop]
  | succ n ih =>
    intro i s hi hrun
    have hilt : i < ts.length := by omega
    have hgetE : ts[i]? = some ts[i] := List.getElem?_eq_getElem hilt
    have hgetq : ts.get? i = some ts[i] := by
      rw [List.get?_eq_getElem?]
      exact hgetE
    have hdrop : ts.drop i = ts[i] :: ts.drop (i + 1) :=
      List.drop_eq_getElem_cons hilt
    rw [hdrop] at hrun
    simp only [runNorm] at hrun
    cases htr : transitions s ts[i].type with
    | none =>
      simp only [htr] at hrun
      exact Option.noConfusion hrun
    | some u =>
      simp only [htr] at hrun
      have hstep : searchLoop (n + 1 + 2) [(0, Branch.mk ts i s 0 [])] none =
          searchLoop (n + 2) [(0, Branch.mk ts (i + 1) (normState u) 0 [])] none := by
        show searchLoop (n + 2 + 1) _ _ = _
        have hpush : handleValidTransition [] (Branch.mk ts i s 0 []) =
            [(0, Branch.mk ts (i + 1) (normState u) 0 [])] := by
          simp [handleValidTransition, hgetE, hgetq, htr, pushQueue, normState, ite_self]
        conv_lhs => rw [searchLoop]
        simp [hgetE, hgetq, htr, Nat.not_le.mpr hilt, hpush]
      rw [hstep]
      exact ih (i + 1) (normState u) (by omega) hrun

/-- validate on a token sequence the grammar already accepts: the root
branch runs straight through, so the sequence comes back unchanged with
no diagnostics. -/
lemma validate_accepted (ts : List Token) (errs : List LexerError)
    (h : accepts ts = true) :
    validateTokens ts errs (ts.length + 2) = some (ts, []) := by
  unfold accepts at h
  cases hrun : runNorm GState.START ts with
  | none => rw [hrun] at h; simp at h
  | some s =>
    rw [hrun] at h
    have hne : s ≠ GState.END :=
      runNorm_ne_end ts GState.START s (by simp) hrun
    have hS : s = GState.START := by
      simp only [decide_eq_true_eq] at h
      rcases h with h1 | h1
      · exact absurd h1 hne
      · exact h1
    subst hS
    have hloop := searchLoop_accepted_run ts ts.length 0 GState.START
      (by omega) (by simpa using hrun)
    unfold validateTokens searchBest
    rw [hloop]
    rfl

/-! ## Further concrete definitions used by the claim theorems -/

/-- The identifier the spec claims is fuzzily promoted to CONST. -/
def cnostText : String := "cnost"

/-- The identifier the spec claims is left alone. -/
def bananaText : String := "banana"

/-- The canonical spelling of the const keyword. -/
def constKeyword : String := "const"

/-- The tokens scanned from the budget-exceeding input. -/
def budgetTokens : List Token := (lex budgetText).1

/-- The scanner correction notice produced on the budget-exceeding
input (its identifier x@ is cleaned to x). -/
def budgetLexErrors : List LexerError := (lex budgetText).2

/-- The tokens of the well-formed declaration. -/
def acceptedTokens : List Token := (lex acceptedText).1

/-- The tokens of the plus-sign declaration. -/
def plusTokens : List Token := (lex plusText).1

/-- The tokens of the minus-sign declaration. -/
def minusTokens : List Token := (lex minusText).1

/-- The plus token scanned at column 17 of the plus-sign declaration. -/
def plusToken : Token := Token.mk TType.PLUS ("+") 1 17

/-- A diagnostic unrelated to any search edit, used to probe that the
scanner's error list does not leak into a successful validation. -/
def probeError : LexerError := LexerError.mk 9 9 ("probe")

/-! ## Claim theorems -/

/-- C1: for every token sequence already accepted by the grammar,
validate returns the token sequence unchanged and an empty diagnostics
list (running with the fuel that covers its linear pass). -/
theorem c1_accepted_unchanged (ts : List Token) (errs : List LexerError)
    (h : accepts ts = true) :
    validateTokens ts errs (ts.length + 2) = some (ts, []) :=
  validate_accepted ts errs h

/-- C1 witness: the scanned well-formed declaration is accepted and
comes back unchanged with no diagnostics. -/
theorem c1_accepted_unchanged_witness :
    accepts acceptedTokens = true ∧
    validateTokens acceptedTokens [] (acceptedTokens.length + 2) =
      some (acceptedTokens, []) :=
  ⟨by decide, c1_accepted_unchanged acceptedTokens [] (by decide)⟩

/-- C2 counterexample: on the budget-exceeding input the scanner leaves
one correction notice, the search exhausts its queue, and validate
returns the original tokens with TWO diagnostics (the scanner's notice
followed by the fatal one), not "exactly one diagnostic and nothing
else" as the claim states. -/
theorem c2_counterexample :
    searchBest budgetTokens 300 = some none ∧
    validateTokens budgetTokens budgetLexErrors 300 =
      some (budgetTokens, budgetLexErrors ++ [budgetExceededError]) ∧
    (budgetLexErrors ++ [budgetExceededError]).length = 2 :=
  ⟨by decide, by decide, by decide⟩

/-- C2 amended: when the search exhausts with no accepting branch,
validate returns the original token sequence untouched together with the
scanner's lexical errors followed by exactly one appended BudgetExceeded
diagnostic (so the returned list is that single fatal diagnostic exactly
when the scanner produced no errors). -/
theorem c2_budget_exceeded (ts : List Token) (errs : List LexerError)
    (fuel : Nat) (h : searchBest ts fuel = some none) :
    validateTokens ts errs fuel = some (ts, errs ++ [budgetExceededError]) ∧
    (errs ++ [budgetExceededError]).length = errs.length + 1 := by
  constructor
  · unfold validateTokens
    rw [h]
    rfl
  · rw [List.length_append]
    rfl

/-- C2 witness: the amended statement applied to the concrete
budget-exceeding run. -/
theorem c2_budget_exceeded_witness :
    searchBest budgetTokens 300 = some none ∧
    validateTokens budgetTokens budgetLexErrors 300 =
      some (budgetTokens, budgetLexErrors ++ [budgetExceededError]) :=
  ⟨by decide, (c2_budget_exceeded budgetTokens budgetLexErrors 300 (by decide)).1⟩

/-- C3 counterexample: the scanner is claimed to emit cnost as a CONST
keyword token spelled const, but lex emits it as a plain IDENTIFIER with
its own spelling (the fuzzy promotion helpers are never called by lex,
and the greedy alignment of cnost against const covers only 2 of 5
characters, below the 60 percent threshold anyway). -/
theorem c3_counterexample :
    (lex cnostText).1 = [Token.mk TType.IDENTIFIER cnostText 1 1] ∧
    (lex cnostText).1 ≠ [Token.mk TType.CONST constKeyword 1 1] :=
  ⟨by decide, by decide⟩

/-- C3 amended: both cnost and banana are emitted as plain IDENTIFIER
tokens with no diagnostics; moreover even the (never invoked) candidate
test rejects both, cnost because its greedy ordered coverage of const is
2/5 = 40 percent, under the 60 percent threshold. -/
theorem c3_no_fuzzy_promotion :
    lex cnostText = ([Token.mk TType.IDENTIFIER cnostText 1 1], []) ∧
    lex bananaText = ([Token.mk TType.IDENTIFIER bananaText 1 1], []) ∧
    isKeywordCandidate cnostText = false ∧
    isKeywordCandidate bananaText = false ∧
    fuzzyMatchCount cnostText.toList constKeyword.toList = 2 ∧
    correctKeyword cnostText = none :=
  ⟨by decide, by decide, by decide, by decide, by decide, by decide⟩

/-- C5 counterexample: the token sequence with a leading plus on the
value (scanned from the plus-sign declaration) is not accepted by the
grammar; validate repairs it by deleting the plus token and reports one
diagnostic, instead of returning it unchanged with zero diagnostics. -/
theorem c5_counterexample :
    plusTokens.get? 5 = some plusToken ∧
    accepts plusTokens = false ∧
    validateTokens plusTokens [] 60 =
      some (plusTokens.eraseIdx 5, [diagOfChange (Change.delete 5 plusToken)]) ∧
    [diagOfChange (Change.delete 5 plusToken)] ≠ ([] : List LexerError) :=
  ⟨by decide, by decide, by decide, by decide⟩

/-- C5 amended: the grammar accepts an optional MINUS sign only (the
VALUE row has no PLUS edge): the minus-sign token sequence is accepted
by validate with zero diagnostics and an unchanged token sequence, while
the plus-sign sequence is repaired with one diagnostic. -/
theorem c5_minus_only :
    accepts minusTokens = true ∧
    validateTokens minusTokens [] (minusTokens.length + 2) =
      some (minusTokens, []) ∧
    transitions GState.VALUE TType.MINUS = some GState.WHOLENUMBER ∧
    transitions GState.VALUE TType.PLUS = none :=
  ⟨by decide, by decide, by decide, by decide⟩

/-- C4 counterexample: the winning branch of the missing-colon run is a
reachable branch that has passed a valid transition into END: its edit
count was reset to 0 but its change log still holds the one logged
insert, so editCount differs from the log length and the log was not
reset to 0 as the claim states. -/
theorem c4_counterexample :
    searchBest missingColonTokens 30 = some (some missingColonWinner) ∧
    missingColonWinner.edit_count = 0 ∧
    missingColonWinner.changes.length = 1 ∧
    missingColonWinner.edit_count ≠ missingColonWinner.changes.length :=
  ⟨by decide, by decide, by decide, by decide⟩

/-- Valid transitions preserve the count-at-most-log property for every
queue entry. -/
lemma ecQueue_handleValid (q : Queue) (b : Branch)
    (hb : b.edit_count ≤ b.changes.length)
    (hq : ∀ x ∈ q, x.2.edit_count ≤ x.2.changes.length) :
    ∀ x ∈ handleValidTransition q b, x.2.edit_count ≤ x.2.changes.length := by
  intro x hx
  cases hget : b.tokens.get? b.index with
  | none => simp only [handleValidTransition, hget] at hx; exact hq x hx
  | some t =>
    cases htr : transitions b.current_state t.type with
    | none => simp only [handleValidTransition, hget, htr] at hx; exact hq x hx
    | some u =>
      simp only [handleValidTransition, hget, htr] at hx
      rcases mem_pushQueue _ _ _ hx with h1 | h1
      · exact hq x h1
      · subst h1
        by_cases hu : u = GState.END <;> simp [hu]
        exact hb

/-- Delete expansions preserve the count-at-most-log property for every
queue entry. -/
lemma ecQueue_generateDelete (q : Queue) (b : Branch)
    (hb : b.edit_count ≤ b.changes.length)
    (hq : ∀ x ∈ q, x.2.edit_count ≤ x.2.changes.length) :
    ∀ x ∈ generateDeleteBranch q b, x.2.edit_count ≤ x.2.changes.length := by
  intro x hx
  cases hget : b.tokens.get? b.index with
  | none => simp only [generateDeleteBranch, hget] at hx; exact hq x hx
  | some t =>
    simp only [generateDeleteBranch, hget] at hx
    split at hx
    case isFalse => exact hq x hx
    case isTrue hg =>
      rcases mem_pushQueue _ _ _ hx with h1 | h1
      · exact hq x h1
      · subst h1
        show b.edit_count + 1 ≤ (b.changes ++ [Change.delete b.index t]).length
        rw [List.length_append]
        exact Nat.succ_le_succ hb

/-- Replace expansions preserve the count-at-most-log property for every
queue entry. -/
lemma ecQueue_generateReplace (q : Queue) (b : Branch)
    (hb : b.edit_count ≤ b.changes.length)
    (hq : ∀ x ∈ q, x.2.edit_count ≤ x.2.changes.length) :
    ∀ x ∈ generateReplaceBranches q b, x.2.edit_count ≤ x.2.changes.length := by
  intro x hx
  cases hget : b.tokens.get? b.index with
  | none => simp only [generateReplaceBranches, hget] at hx; exact hq x hx
  | some t =>
    simp only [generateReplaceBranches, hget] at hx
    refine queueP_foldl (fun y => y.2.edit_count ≤ y.2.changes.length) _ _ q ?_ hq x hx
    intro q1 p hp hq1 y hy
    simp only at hy
    split at hy
    case isFalse => exact hq1 y hy
    case isTrue hg =>
      rcases mem_pushQueue _ _ _ hy with h1 | h1
      · exact hq1 y h1
      · subst h1
        show b.edit_count + 1 ≤ (b.changes ++ [Change.replace b.index t (createToken p.1 t false)]).length
        rw [List.length_append]
        exact Nat.succ_le_succ hb

/-- Insert expansions preserve the count-at-most-log property for every
queue entry. -/
lemma ecQueue_generateInsert (q : Queue) (b : Branch)
    (hb : b.edit_count ≤ b.changes.length)
    (hq : ∀ x ∈ q, x.2.edit_count ≤ x.2.changes.length) :
    ∀ x ∈ generateInsertBranches q b, x.2.edit_count ≤ x.2.changes.length := by
  intro x hx
  cases hget : b.tokens.get? b.index with
  | none => simp only [generateInsertBranches, hget] at hx; exact hq x hx
  | some t =>
    simp only [generateInsertBranches, hget] at hx
    refine queueP_foldl (fun y => y.2.edit_count ≤ y.2.changes.length) _ _ q ?_ hq x hx
    intro q1 p hp hq1 y hy
    simp only at hy
    split at hy
    case isFalse => exact hq1 y hy
    case isTrue hg =>
      rcases mem_pushQueue _ _ _ hy with h1 | h1
      · exact hq1 y h1
      · subst h1
        show b.edit_count + 1 ≤ (b.changes ++ [Change.insert b.index (createToken p.1 t false)]).length
        rw [List.length_append]
        exact Nat.succ_le_succ hb

/-- End-of-input insert expansions preserve the count-at-most-log
property for every queue entry. -/
lemma ecQueue_processTransitions (q : Queue) (b : Branch)
    (hb : b.edit_count ≤ b.changes.length)
    (hq : ∀ x ∈ q, x.2.edit_count ≤ x.2.changes.length) :
    ∀ x ∈ processTransitions q b, x.2.edit_count ≤ x.2.changes.length := by
  intro x hx
  simp only [processTransitions] at hx
  refine queueP_foldl (fun y => y.2.edit_count ≤ y.2.changes.length) _ _ q ?_ hq x hx
  intro q1 p hp hq1 y hy
  simp only at hy
  split at hy
  case isFalse => exact hq1 y hy
  case isTrue hg =>
    rcases mem_pushQueue _ _ _ hy with h1 | h1
    · exact hq1 y h1
    · subst h1
      show b.edit_count + 1 ≤ (b.changes ++ [Change.insert _ _]).length
      rw [List.length_append]
      exact Nat.succ_le_succ hb

/-- Throughout the search loop, every branch of every reached
configuration keeps its edit count at most its log length; in
particular any returned completion candidate does. -/
lemma searchLoop_ecLog : ∀ (fuel : Nat) (queue : Queue) (best r : Option Branch),
    (∀ x ∈ queue, x.2.edit_count ≤ x.2.changes.length) →
    (∀ bb, best = some bb → bb.edit_count ≤ bb.changes.length) →
    searchLoop fuel queue best = some r →
    ∀ bb, r = some bb → bb.edit_count ≤ bb.changes.length := by
  intro fuel
  induction fuel with
  | zero =>
    intro queue best r _ _ h
    simp [searchLoop] at h
  | succ fuel ih =>
    intro queue best r hq hb h
    cases queue with
    | nil =>
      simp only [searchLoop, Option.some_inj] at h
      exact h ▸ hb
    | cons e rest =>
      obtain ⟨p, b⟩ := e
      have hbr : b.edit_count ≤ b.changes.length :=
        hq (p, b) (List.mem_cons.mpr (Or.inl rfl))
      have hrest : ∀ x ∈ rest, x.2.edit_count ≤ x.2.changes.length :=
        fun pb hpb => hq pb (List.mem_cons.mpr (Or.inr hpb))
      simp only [searchLoop] at h
      split at h
      · simp only [Option.some_inj] at h
        exact h ▸ hb
      · split at h
        · split at h
          case isTrue hacc =>
            refine ih rest _ r hrest ?_ h
            intro bb hbb
            cases best with
            | none =>
              simp only [Option.some_inj] at hbb
              exact hbb ▸ hbr
            | some bb0 =>
              by_cases hlt : b.edit_count < bb0.edit_count <;>
                simp only [hlt, if_pos, if_neg, if_true, if_false,
                  Option.some_inj] at hbb
              · exact hbb ▸ hbr
              · exact hbb ▸ hb bb0 rfl
          case isFalse hacc =>
            exact ih _ best r
              (ecQueue_processTransitions rest b hbr hrest) hb h
        · split at h
          · exact ih rest best r hrest hb h
          · split at h
            · exact ih _ best r (ecQueue_handleValid rest b hbr hrest) hb h
            · exact ih _ best r
                (ecQueue_generateInsert _ b hbr
                  (ecQueue_generateReplace _ b hbr
                    (ecQueue_generateDelete rest b hbr hrest))) hb h

/-- C4 amended: every Branch the search reaches satisfies editCount at
most the length of its change log.  The exact mechanism: a valid
transition into END resets the edit count to 0 while copying the change
log unchanged (it is never cleared); a valid transition into any other
state changes neither; and each of the four repair sites increments the
edit count and the log length together, so equality holds until the
branch's first END reset.  The conjuncts state the five push sites
exactly, the preservation over every loop configuration, and the bound
for every winning branch. -/
theorem c4_editcount_le_log :
    (∀ (q : Queue) (b : Branch) (x : Nat × Branch),
      x ∈ handleValidTransition q b → x ∈ q ∨
        ∃ t u, b.tokens.get? b.index = some t ∧
          transitions b.current_state t.type = some u ∧
          x.2.changes = b.changes ∧
          x.2.edit_count = (if u = GState.END then 0 else b.edit_count)) ∧
    (∀ (q : Queue) (b : Branch) (x : Nat × Branch),
      x ∈ generateDeleteBranch q b → x ∈ q ∨
        (x.2.edit_count = b.edit_count + 1 ∧
          x.2.changes.length = b.changes.length + 1)) ∧
    (∀ (q : Queue) (b : Branch) (x : Nat × Branch),
      x ∈ generateReplaceBranches q b → x ∈ q ∨
        (x.2.edit_count = b.edit_count + 1 ∧
          x.2.changes.length = b.changes.length + 1)) ∧
    (∀ (q : Queue) (b : Branch) (x : Nat × Branch),
      x ∈ generateInsertBranches q b → x ∈ q ∨
        (x.2.edit_count = b.edit_count + 1 ∧
          x.2.changes.length = b.changes.length + 1)) ∧
    (∀ (q : Queue) (b : Branch) (x : Nat × Branch),
      x ∈ processTransitions q b → x ∈ q ∨
        (x.2.edit_count = b.edit_count + 1 ∧
          x.2.changes.length = b.changes.length + 1)) ∧
    (∀ (fuel : Nat) (queue : Queue) (best r : Option Branch),
      (∀ x ∈ queue, x.2.edit_count ≤ x.2.changes.length) →
      (∀ bb, best = some bb → bb.edit_count ≤ bb.changes.length) →
      searchLoop fuel queue best = some r →
      ∀ bb, r = some bb → bb.edit_count ≤ bb.changes.length) ∧
    (∀ (ts : List Token) (fuel : Nat) (b : Branch),
      searchBest ts fuel = some (some b) →
      b.edit_count ≤ b.changes.length) := by
  refine ⟨?_, ?_, ?_, ?_, ?_, searchLoop_ecLog, ?_⟩
  · intro q b x hx
    cases hget : b.tokens.get? b.index with
    | none =>
      simp only [handleValidTransition, hget] at hx
      exact Or.inl hx
    | some t =>
      cases htr : transitions b.current_state t.type with
      | none =>
        simp only [handleValidTransition, hget, htr] at hx
        exact Or.inl hx
      | some u =>
        simp only [handleValidTransition, hget, htr] at hx
        rcases mem_pushQueue _ _ _ hx with h1 | h1
        · exact Or.inl h1
        · subst h1
          exact Or.inr ⟨t, u, rfl, htr, rfl, rfl⟩
  · intro q b x hx
    cases hget : b.tokens.get? b.index with
    | none =>
      simp only [generateDeleteBranch, hget] at hx
      exact Or.inl hx
    | some t =>
      simp only [generateDeleteBranch, hget] at hx
      split at hx
      case isFalse => exact Or.inl hx
      case isTrue hg =>
        rcases mem_pushQueue _ _ _ hx with h1 | h1
        · exact Or.inl h1
        · subst h1
          refine Or.inr ⟨rfl, ?_⟩
          show (b.changes ++ [Change.delete b.index t]).length = b.changes.length + 1
          rw [List.length_append]
          rfl
  · intro q b x hx
    cases hget : b.tokens.get? b.index with
    | none =>
      simp only [generateReplaceBranches, hget] at hx
      exact Or.inl hx
    | some t =>
      simp only [generateReplaceBranches, hget] at hx
      refine queueP_foldl (fun y => y ∈ q ∨
        (y.2.edit_count = b.edit_count + 1 ∧
          y.2.changes.length = b.changes.length + 1)) _ _ q
        ?_ (fun y hy => Or.inl hy) x hx
      intro q1 p hp hq1 y hy
      simp only at hy
      split at hy
      case isFalse => exact hq1 y hy
      case isTrue hg =>
        rcases mem_pushQueue _ _ _ hy with h1 | h1
        · exact hq1 y h1
        · subst h1
          refine Or.inr ⟨rfl, ?_⟩
          show (b.changes ++ [Change.replace b.index t (createToken p.1 t false)]).length =
            b.changes.length + 1
          rw [List.length_append]
          rfl
  · intro q b x hx
    cases hget : b.tokens.get? b.index with
    | none =>
      simp only [generateInsertBranches, hget] at hx
      exact Or.inl hx
    | some t =>
      simp only [generateInsertBranches, hget] at hx
      refine queueP_foldl (fun y => y ∈ q ∨
        (y.2.edit_count = b.edit_count + 1 ∧
          y.2.changes.length = b.changes.length + 1)) _ _ q
        ?_ (fun y hy => Or.inl hy) x hx
      intro q1 p hp hq1 y hy
      simp only at hy
      split at hy
      case isFalse => exact hq1 y hy
      case isTrue hg =>
        rcases mem_pushQueue _ _ _ hy with h1 | h1
        · exact hq1 y h1
        · subst h1
          refine Or.inr ⟨rfl, ?_⟩
          show (b.changes ++ [Change.insert b.index (createToken p.1 t false)]).length =
            b.changes.length + 1
          rw [List.length_append]
          rfl
  · intro q b x hx
    simp only [processTransitions] at hx
    refine queueP_foldl (fun y => y ∈ q ∨
      (y.2.edit_count = b.edit_count + 1 ∧
        y.2.changes.length = b.changes.length + 1)) _ _ q
      ?_ (fun y hy => Or.inl hy) x hx
    intro q1 p hp hq1 y hy
    simp only at hy
    split at hy
    case isFalse => exact hq1 y hy
    case isTrue hg =>
      rcases mem_pushQueue _ _ _ hy with h1 | h1
      · exact hq1 y h1
      · subst h1
        refine Or.inr ⟨rfl, ?_⟩
        show (b.changes ++ [Change.insert _ _]).length = b.changes.length + 1
        rw [List.length_append]
        rfl
  · intro ts fuel b h
    exact (searchBest_winner h).1.2.2.1

/-- C4 witness: the valid-transition part applied to the root step of
the missing-colon run (a non-END transition, count and log unchanged),
the delete part applied to the branch stuck at its I32 token (count and
log both incremented), the loop-preservation part applied to the whole
concrete run, and the winner part to its winning branch. -/
theorem c4_editcount_le_log_witness :
    ((0, Branch.mk missingColonTokens 1 GState.CONSTIDENTIFIER 0 []) ∈ ([] : Queue) ∨
      ∃ t u, (Branch.mk missingColonTokens 0 GState.START 0 []).tokens.get?
          (Branch.mk missingColonTokens 0 GState.START 0 []).index = some t ∧
        transitions GState.START t.type = some u ∧
        (Branch.mk missingColonTokens 1 GState.CONSTIDENTIFIER 0 []).changes =
          (Branch.mk missingColonTokens 0 GState.START 0 []).changes ∧
        (Branch.mk missingColonTokens 1 GState.CONSTIDENTIFIER 0 []).edit_count =
          (if u = GState.END then 0
            else (Branch.mk missingColonTokens 0 GState.START 0 []).edit_count)) ∧
    ((1, Branch.mk (missingColonTokens.eraseIdx 2) 2 GState.COLON 1
        [Change.delete 2 (Token.mk TType.I32 ("i32") 1 9)]) ∈ ([] : Queue) ∨
      ((Branch.mk (missingColonTokens.eraseIdx 2) 2 GState.COLON 1
          [Change.delete 2 (Token.mk TType.I32 ("i32") 1 9)]).edit_count =
        (Branch.mk missingColonTokens 2 GState.COLON 0 []).edit_count + 1 ∧
        (Branch.mk (missingColonTokens.eraseIdx 2) 2 GState.COLON 1
          [Change.delete 2 (Token.mk TType.I32 ("i32") 1 9)]).changes.length =
        (Branch.mk missingColonTokens 2 GState.COLON 0 []).changes.length + 1)) ∧
    missingColonWinner.edit_count ≤ missingColonWinner.changes.length ∧
    missingColonWinner.edit_count ≤ missingColonWinner.changes.length :=
  ⟨c4_editcount_le_log.1 [] (Branch.mk missingColonTokens 0 GState.START 0 [])
      (0, Branch.mk missingColonTokens 1 GState.CONSTIDENTIFIER 0 []) (by decide),
    c4_editcount_le_log.2.1 [] (Branch.mk missingColonTokens 2 GState.COLON 0 [])
      (1, Branch.mk (missingColonTokens.eraseIdx 2) 2 GState.COLON 1
        [Change.delete 2 (Token.mk TType.I32 ("i32") 1 9)]) (by decide),
    c4_editcount_le_log.2.2.2.2.2.1 30 [(0, Branch.mk missingColonTokens 0 GState.START 0 [])]
      none (some missingColonWinner)
      (by decide)
      (fun bb hbb => Option.noConfusion hbb)
      (by decide)
      missingColonWinner rfl,
    c4_editcount_le_log.2.2.2.2.2.2 missingColonTokens 30 missingColonWinner (by decide)⟩

/-- C6: on the scanned tokens of the missing-colon input, validate
returns exactly one diagnostic, the insertion of a COLON token, and the
repaired sequence is the original with that COLON inserted at position 2,
between the IDENTIFIER x (position 1) and the I32 token (position 2). -/
theorem c6_missing_colon :
    lex missingColonText = (missingColonTokens, []) ∧
    missingColonTokens.get? 1 = some (Token.mk TType.IDENTIFIER ("x") 1 7) ∧
    missingColonTokens.get? 2 = some (Token.mk TType.I32 ("i32") 1 9) ∧
    insertedColon.type = TType.COLON ∧
    validateTokens missingColonTokens [] 30 =
      some (missingColonTokens.insertIdx 2 insertedColon,
        [diagOfChange (Change.insert 2 insertedColon)]) :=
  ⟨by decide, by decide, by decide, by decide, by decide⟩

/-- C7 counterexample: on the budget-exceeding input, validate returns
the original token sequence; re-running validate on that returned
sequence produces the fatal budget diagnostic again, not zero further
diagnostics, so the claimed idempotence fails for inputs whose repair
exceeds the budget. -/
theorem c7_counterexample :
    validateTokens budgetTokens budgetLexErrors 300 =
      some (budgetTokens, budgetLexErrors ++ [budgetExceededError]) ∧
    validateTokens budgetTokens [] 300 =
      some (budgetTokens, [budgetExceededError]) ∧
    [budgetExceededError] ≠ ([] : List LexerError) :=
  ⟨by decide, by decide, by decide⟩

/-- C7 amended: whenever the repair search succeeds, validate returns
the winning branch's tokens, and re-running validate on that repaired
sequence returns it unchanged with zero diagnostics. -/
theorem c7_idempotent_on_success (ts : List Token) (errs errs2 : List LexerError)
    (fuel : Nat) (b : Branch) (h : searchBest ts fuel = some (some b)) :
    validateTokens ts errs fuel = some (b.tokens, generateErrorsFromChanges b.changes) ∧
    validateTokens b.tokens errs2 (b.tokens.length + 2) = some (b.tokens, []) := by
  constructor
  · unfold validateTokens
    rw [h]
    rfl
  · exact validate_accepted _ _ (winner_accepts h)

/-- C7 witness: the missing-colon run succeeds, and validate run again
on its repaired sequence returns it unchanged with no diagnostics. -/
theorem c7_idempotent_on_success_witness :
    searchBest missingColonTokens 30 = some (some missingColonWinner) ∧
    validateTokens missingColonWinner.tokens []
      (missingColonWinner.tokens.length + 2) =
      some (missingColonWinner.tokens, []) :=
  ⟨by decide,
    (c7_idempotent_on_success missingColonTokens [] [] 30 missingColonWinner (by decide)).2⟩

/-- C8: the edit log returned by a successful validate is invertible:
undoing each recorded edit in reverse chronological order (insert
becomes delete at its position, delete re-inserts the recorded token,
replace restores the recorded old token) on the repaired sequence
reconstructs exactly the original scanned token sequence. -/
theorem c8_editlog_invertible (ts : List Token) (errs : List LexerError)
    (fuel : Nat) (b : Branch) (h : searchBest ts fuel = some (some b)) :
    validateTokens ts errs fuel = some (b.tokens, generateErrorsFromChanges b.changes) ∧
    undoChanges b.changes b.tokens = ts := by
  constructor
  · unfold validateTokens
    rw [h]
    rfl
  · exact (searchBest_winner h).1.2.2.2.1

/-- C8 witness: undoing the missing-colon run's log on its repaired
sequence restores the scanned sequence. -/
theorem c8_editlog_invertible_witness :
    searchBest missingColonTokens 30 = some (some missingColonWinner) ∧
    undoChanges missingColonWinner.changes missingColonWinner.tokens =
      missingColonTokens :=
  ⟨by decide,
    (c8_editlog_invertible missingColonTokens [] 30 missingColonWinner (by decide)).2⟩

/-- C9: every branch any expansion site pushes respects the edit budget:
the four repair sites push only under the guard editCount + 1 at most
MAX_EDIT_COUNT, the valid-transition site never increases the count, and
consequently every winning branch carries at most 15 edits. -/
theorem c9_budget_invariant :
    (∀ (q : Queue) (b : Branch) (x : Nat × Branch),
      x ∈ generateDeleteBranch q b → x ∈ q ∨ x.2.edit_count ≤ MAX_EDIT_COUNT) ∧
    (∀ (q : Queue) (b : Branch) (x : Nat × Branch),
      x ∈ generateReplaceBranches q b → x ∈ q ∨ x.2.edit_count ≤ MAX_EDIT_COUNT) ∧
    (∀ (q : Queue) (b : Branch) (x : Nat × Branch),
      x ∈ generateInsertBranches q b → x ∈ q ∨ x.2.edit_count ≤ MAX_EDIT_COUNT) ∧
    (∀ (q : Queue) (b : Branch) (x : Nat × Branch),
      x ∈ processTransitions q b → x ∈ q ∨ x.2.edit_count ≤ MAX_EDIT_COUNT) ∧
    (∀ (q : Queue) (b : Branch) (x : Nat × Branch),
      b.edit_count ≤ MAX_EDIT_COUNT → x ∈ handleValidTransition q b →
        x ∈ q ∨ x.2.edit_count ≤ MAX_EDIT_COUNT) ∧
    (∀ (ts : List Token) (fuel : Nat) (b : Branch),
      searchBest ts fuel = some (some b) → b.edit_count ≤ MAX_EDIT_COUNT) := by
  refine ⟨?_, ?_, ?_, ?_, ?_, ?_⟩
  · intro q b x hx
    cases hget : b.tokens.get? b.index with
    | none =>
      simp only [generateDeleteBranch, hget] at hx
      exact Or.inl hx
    | some t =>
      simp only [generateDeleteBranch, hget] at hx
      split at hx
      case isFalse => exact Or.inl hx
      case isTrue hg =>
        rcases mem_pushQueue _ _ _ hx with h1 | h1
        · exact Or.inl h1
        · subst h1
          exact Or.inr hg
  · intro q b x hx
    cases hget : b.tokens.get? b.index with
    | none =>
      simp only [generateReplaceBranches, hget] at hx
      exact Or.inl hx
    | some t =>
      simp only [generateReplaceBranches, hget] at hx
      refine queueP_foldl (fun y => y ∈ q ∨ y.2.edit_count ≤ MAX_EDIT_COUNT) _ _ q
        ?_ (fun y hy => Or.inl hy) x hx
      intro q1 p hp hq1 y hy
      simp only at hy
      split at hy
      case isFalse => exact hq1 y hy
      case isTrue hg =>
        rcases mem_pushQueue _ _ _ hy with h1 | h1
        · exact hq1 y h1
        · subst h1
          exact Or.inr hg
  · intro q b x hx
    cases hget : b.tokens.get? b.index with
    | none =>
      simp only [generateInsertBranches, hget] at hx
      exact Or.inl hx
    | some t =>
      simp only [generateInsertBranches, hget] at hx
      refine queueP_foldl (fun y => y ∈ q ∨ y.2.edit_count ≤ MAX_EDIT_COUNT) _ _ q
        ?_ (fun y hy => Or.inl hy) x hx
      intro q1 p hp hq1 y hy
      simp only at hy
      split at hy
      case isFalse => exact hq1 y hy
      case isTrue hg =>
        rcases mem_pushQueue _ _ _ hy with h1 | h1
        · exact hq1 y h1
        · subst h1
          exact Or.inr hg
  · intro q b x hx
    simp only [processTransitions] at hx
    refine queueP_foldl (fun y => y ∈ q ∨ y.2.edit_count ≤ MAX_EDIT_COUNT) _ _ q
      ?_ (fun y hy => Or.inl hy) x hx
    intro q1 p hp hq1 y hy
    simp only at hy
    split at hy
    case isFalse => exact hq1 y hy
    case isTrue hg =>
      rcases mem_pushQueue _ _ _ hy with h1 | h1
      · exact hq1 y h1
      · subst h1
        exact Or.inr hg
  · intro q b x hb hx
    cases hget : b.tokens.get? b.index with
    | none =>
      simp only [handleValidTransition, hget] at hx
      exact Or.inl hx
    | some t =>
      cases htr : transitions b.current_state t.type with
      | none =>
        simp only [handleValidTransition, hget, htr] at hx
        exact Or.inl hx
      | some u =>
        simp only [handleValidTransition, hget, htr] at hx
        rcases mem_pushQueue _ _ _ hx with h1 | h1
        · exact Or.inl h1
        · subst h1
          refine Or.inr ?_
          by_cases hu : u = GState.END <;> simp [hu]
          exact hb
  · intro ts fuel b h
    exact (searchBest_winner h).1.2.1

/-- C9 witness: the valid-transition part applied to the root step of
the missing-colon run, and the winner part to its winning branch. -/
theorem c9_budget_invariant_witness :
    ((0, Branch.mk missingColonTokens 1 GState.CONSTIDENTIFIER 0 []) ∈ ([] : Queue) ∨
      (Branch.mk missingColonTokens 1 GState.CONSTIDENTIFIER 0 []).edit_count ≤
        MAX_EDIT_COUNT) ∧
    missingColonWinner.edit_count ≤ MAX_EDIT_COUNT :=
  ⟨c9_budget_invariant.2.2.2.2.1 [] (Branch.mk missingColonTokens 0 GState.START 0 [])
      (0, Branch.mk missingColonTokens 1 GState.CONSTIDENTIFIER 0 []) (by decide) (by decide),
    c9_budget_invariant.2.2.2.2.2 missingColonTokens 30 missingColonWinner (by decide)⟩

/-- C10: when the search succeeds, the diagnostics validate returns are
generated solely from the winning branch's change log, one diagnostic
per logged edit in chronological log order, independent of the
scanner's error list; the scanner's errors appear in the return value
only in the budget-exceeded case, ahead of the fatal diagnostic. -/
theorem c10_diagnostics_from_winner :
    (∀ (ts : List Token) (errs : List LexerError) (fuel : Nat) (b : Branch),
      searchBest ts fuel = some (some b) →
      validateTokens ts errs fuel = some (b.tokens, b.changes.map diagOfChange)) ∧
    (∀ (ts : List Token) (errs errs2 : List LexerError) (fuel : Nat) (b : Branch),
      searchBest ts fuel = some (some b) →
      validateTokens ts errs fuel = validateTokens ts errs2 fuel) ∧
    (∀ (ts : List Token) (errs : List LexerError) (fuel : Nat),
      searchBest ts fuel = some none →
      validateTokens ts errs fuel = some (ts, errs ++ [budgetExceededError])) := by
  refine ⟨?_, ?_, ?_⟩
  · intro ts errs fuel b h
    unfold validateTokens
    rw [h]
    rfl
  · intro ts errs errs2 fuel b h
    unfold validateTokens
    rw [h]
    rfl
  · intro ts errs fuel h
    unfold validateTokens
    rw [h]
    rfl

/-- C10 witness: on the missing-colon run the returned diagnostics are
the mapped change log even with a probe error in the scanner's list, and
on the budget run the probe error is returned ahead of the fatal
diagnostic. -/
theorem c10_diagnostics_from_winner_witness :
    validateTokens missingColonTokens [probeError] 30 =
      some (missingColonWinner.tokens, missingColonWinner.changes.map diagOfChange) ∧
    validateTokens missingColonTokens [probeError] 30 =
      validateTokens missingColonTokens [] 30 ∧
    validateTokens budgetTokens [probeError] 300 =
      some (budgetTokens, [probeError] ++ [budgetExceededError]) :=
  ⟨c10_diagnostics_from_winner.1 missingColonTokens [probeError] 30
      missingColonWinner (by decide),
    c10_diagnostics_from_winner.2.1 missingColonTokens [probeError] [] 30
      missingColonWinner (by decide),
    c10_diagnostics_from_winner.2.2 budgetTokens [probeError] 300 (by decide)⟩

end Otstoy
